import Mathlib

/-!
Verification of the talla-ui core: a shallow embedding of the `ObjectReader`
schema validator (ObjectReader.ts) and of the view preset application /
event-interception layer (`View.applyViewPreset`, View.ts) together with the
`ManagedEvent` value object (ManagedEvent.ts), plus theorems about their
behavior.

Modelling conventions:
- JavaScript runtime values are modelled by the inductive `JSValue`.
  JavaScript numbers are modelled as integers (`Int`); none of the verified
  properties depends on float-specific behavior.  `Date` objects are modelled
  as epoch timestamps; an invalid date can arise only from a failed string
  coercion, which is folded into the coercion result.
- Host builtins that are external to the repository (`parseFloat`, date
  parsing by `new Date(string)`) are modelled by simple executable stand-ins;
  the verified claims are independent of their exact behavior.
- JavaScript objects are association lists in insertion order (JS object keys
  are unique, so theorems that need uniqueness take a `Nodup` hypothesis).
- A thrown exception is modelled by `Except.error`; a normal return by
  `Except.ok`.
-/

/-- Model of a JavaScript runtime value. -/
inductive JSValue : Type where
  | undef : JSValue
  | null : JSValue
  | bool (b : Bool) : JSValue
  | num (n : Int) : JSValue
  | str (s : String) : JSValue
  | date (t : Int) : JSValue
  | arr (elems : List JSValue) : JSValue
  | obj (fields : List (String × JSValue)) : JSValue

/-- Tests whether a value is exactly `undefined` (JS `=== undefined`). -/
def JSValue.isUndef : JSValue → Bool
  | JSValue.undef => true
  | _ => false

mutual

/-- Structural equality of values, modelling JS `===` where it is used on the
primitive values handled by the validator. -/
def JSValue.beq : JSValue → JSValue → Bool
  | JSValue.undef, JSValue.undef => true
  | JSValue.null, JSValue.null => true
  | JSValue.bool a, JSValue.bool b => a == b
  | JSValue.num a, JSValue.num b => a == b
  | JSValue.str a, JSValue.str b => a == b
  | JSValue.date a, JSValue.date b => a == b
  | JSValue.arr a, JSValue.arr b => JSValue.beqList a b
  | JSValue.obj a, JSValue.obj b => JSValue.beqFields a b
  | _, _ => false

/-- Structural equality of value lists. -/
def JSValue.beqList : List JSValue → List JSValue → Bool
  | [], [] => true
  | x :: xs, y :: ys => JSValue.beq x y && JSValue.beqList xs ys
  | _, _ => false

/-- Structural equality of property lists. -/
def JSValue.beqFields : List (String × JSValue) → List (String × JSValue) → Bool
  | [], [] => true
  | (k, x) :: xs, (l, y) :: ys => k == l && JSValue.beq x y && JSValue.beqFields xs ys
  | _, _ => false

end

/-- Membership test modelling `Array.prototype.includes`. -/
def jsIncludes (l : List JSValue) (v : JSValue) : Bool :=
  match l with
  | [] => false
  | x :: rest => JSValue.beq x v || jsIncludes rest v

/-- Model of a JavaScript `Error` value (with its subclasses used here). -/
inductive JSError : Type where
  | error (msg : String) : JSError
  | typeError (msg : String) : JSError
  | rangeError : JSError
  | invalidArgument (msg : String) : JSError
deriving DecidableEq

/-- First-match association list lookup, modelling JS property access. -/
def assocGet {α : Type} (l : List (String × α)) (k : String) : Option α :=
  match l with
  | [] => none
  | (k', v) :: rest => if k' = k then some v else assocGet rest k

/-- Checks if the provided value is an object (not an array or null); `Date`
objects count as objects, faithful to `isObject` in ObjectReader.ts. -/
def JSValue.isObject : JSValue → Bool
  | JSValue.obj _ => true
  | JSValue.date _ => true
  | _ => false

/-- Own enumerable properties of a value (empty for a `Date`). -/
def JSValue.ownEntries : JSValue → List (String × JSValue)
  | JSValue.obj fields => fields
  | _ => []

/-- Max recursion level to stop runaway validations (`MAX_RECURSE`). -/
def MAX_RECURSE : Int := 100

/-- Default error string that gets used if none else available. -/
def DEFAULT_ERROR : String := "ObjectReader error"

/-- Field name or array index passed to validation functions. -/
inductive FieldKey : Type where
  | str (s : String) : FieldKey
  | idx (n : Nat) : FieldKey
deriving DecidableEq

/-- Model of the expression `field || "_"` in `_validate`: the empty string
and the index `0` are falsy and replaced by `"_"`. -/
def FieldKey.orUnderscore : FieldKey → FieldKey
  | FieldKey.str s => if s = "" then FieldKey.str ("_") else FieldKey.str s
  | FieldKey.idx n => if n = 0 then FieldKey.str ("_") else FieldKey.idx n

/-- The result of a validation function: a field value and/or an error
(`ObjectReader.ValidationResult`); an absent property is `none`. -/
structure ValidationResult : Type where
  value : JSValue
  error : Option String

/-- Truthiness of the `error` property of a validation result, as tested by
`if (v.error)` in the source: present and not the empty string. -/
def ValidationResult.errTruthy (r : ValidationResult) : Bool :=
  match r.error with
  | some s => decide (¬ s = "")
  | none => false

/-- Keeps an error string only when it is truthy (present and nonempty). -/
def truthyErr : Option String → Option String
  | some s => if s = "" then none else some s
  | none => none

/-- Helper function to make an error return object using a (partial) rule:
`(rule as any).err || fallback?.err || DEFAULT_ERROR`. -/
def _makeError (ruleErr : Option String) (fallbackErr : Option String) : ValidationResult :=
  ⟨JSValue.undef, some (((truthyErr ruleErr).orElse (fun _ => truthyErr fallbackErr)).getD DEFAULT_ERROR)⟩

/-- A `min`/`max` length constraint (`{ length, err? }`). -/
structure LengthRule : Type where
  length : Int
  err : Option String

/-- The `boolean` part of a simple schema rule; `true'` models the `true`
flag (absent means false, matching its truthiness in the source). -/
structure BooleanRule : Type where
  true' : Bool
  err : Option String

/-- The `string` part of a simple schema rule.  A `RegExp` is modelled as a
decidable predicate on strings.  `required` is `true | { err }`, modelled as
`Option (Option String)` (inner value: the optional `err`). -/
structure StringRule : Type where
  err : Option String
  match' : Option (String → Bool)
  required : Option (Option String)
  min : Option LengthRule
  max : Option LengthRule

/-- A `min`/`max` numeric bound (`{ value, err? }`). -/
structure NumberLimit : Type where
  value : Int
  err : Option String

/-- The `number` part of a simple schema rule; `integer`, `positive` and
`nonzero` are `true | { err }`, modelled as `Option (Option String)`. -/
structure NumberRule : Type where
  err : Option String
  integer : Option (Option String)
  positive : Option (Option String)
  nonzero : Option (Option String)
  min : Option NumberLimit
  max : Option NumberLimit

/-- A `min`/`max` date bound (`{ date, err? }`). -/
structure DateLimit : Type where
  date : Int
  err : Option String

/-- The `date` part of a simple schema rule. -/
structure DateRule : Type where
  err : Option String
  min : Option DateLimit
  max : Option DateLimit

/-- The `value` part of a simple schema rule (`{ match: any[], err? }`).
JS `includes` uses `===`; on the primitive values produced by JSON input
this coincides with structural equality, which is what is modelled. -/
structure ValueRule : Type where
  match' : Option (List JSValue)
  err : Option String

/-- The simple (non-composite) branch of a schema rule: at most one each of
`boolean` / `string` / `number` / `date` / `value` constraints. -/
structure SimpleRule : Type where
  boolean : Option BooleanRule
  string : Option StringRule
  number : Option NumberRule
  date : Option DateRule
  value : Option ValueRule

/-- A rule definition for a particular field (`ObjectReader.SchemaRule`);
each constructor carries the `optional` flag of the rule. -/
inductive SchemaRule : Type where
  | validate (optional : Bool) (f : JSValue → FieldKey → ValidationResult) : SchemaRule
  | array (optional : Bool) (items : Option SchemaRule) (err : Option String)
      (min : Option LengthRule) (max : Option LengthRule) : SchemaRule
  | object (optional : Bool) (schema : List (String × SchemaRule)) (err : Option String) : SchemaRule
  | record (optional : Bool) (values : Option SchemaRule) (err : Option String) : SchemaRule
  | simple (optional : Bool) (rules : SimpleRule) : SchemaRule

/-- The `optional` flag of a schema rule. -/
def SchemaRule.optional : SchemaRule → Bool
  | SchemaRule.validate o _ => o
  | SchemaRule.array o _ _ _ _ => o
  | SchemaRule.object o _ _ => o
  | SchemaRule.record o _ _ => o
  | SchemaRule.simple o _ => o

/-- The empty rule object `{}` used as a default for missing `items` and
`values` sub-rules. -/
def emptySchemaRule : SchemaRule :=
  SchemaRule.simple false ⟨none, none, none, none, none⟩

/-- Model of the host `parseFloat` builtin (external to the repository); a
result of `none` stands for `NaN`. -/
def parseFloatModel (s : String) : Option Int :=
  s.toInt?

/-- Model of host date-string parsing by `new Date(string)` (external to the
repository); a result of `none` stands for an invalid date. -/
def dateFromString (s : String) : Option Int :=
  s.toInt?

/-- Largest safe integer magnitude (`Number.MAX_SAFE_INTEGER`). -/
def maxSafeInteger : Nat := 2 ^ 53 - 1

/-- The `boolean` constraint check of a simple rule (left: early error
return; right: the value passed on to the next check). -/
def checkBoolean (value : JSValue) (rule : Option BooleanRule) : Except ValidationResult JSValue :=
  match rule with
  | none => Except.ok value
  | some br =>
    match value with
    | JSValue.bool b =>
      if br.true' ∧ b = false then Except.error (_makeError br.err none)
      else Except.ok (JSValue.bool b)
    | _ => Except.error (_makeError br.err none)

/-- The `string` constraint checks of a simple rule, in source order:
type/regexp, `required`, `min`, `max`. -/
def checkString (value : JSValue) (rule : Option StringRule) : Except ValidationResult JSValue :=
  match rule with
  | none => Except.ok value
  | some sr =>
    match value with
    | JSValue.str s =>
      if (match sr.match' with | some re => !(re s) | none => false) then
        Except.error (_makeError sr.err none)
      else if (match sr.required with | some _ => decide (s = "") | none => false) then
        Except.error (_makeError (match sr.required with | some e => e | none => none) sr.err)
      else if (match sr.min with | some mn => decide ((s.length : Int) < mn.length) | none => false) then
        Except.error (_makeError (match sr.min with | some mn => mn.err | none => none) sr.err)
      else if (match sr.max with | some mx => decide (mx.length < (s.length : Int)) | none => false) then
        Except.error (_makeError (match sr.max with | some mx => mx.err | none => none) sr.err)
      else Except.ok (JSValue.str s)
    | _ => Except.error (_makeError sr.err none)

/-- The `number` constraint checks applied to an (already coerced) numeric
value, in source order: `integer`, `nonzero`, `positive`, `min`, `max`. -/
def checkNumberValue (n : Int) (nr : NumberRule) : Except ValidationResult JSValue :=
  if (match nr.integer with | some _ => !(decide (n.natAbs ≤ maxSafeInteger)) | none => false) then
    Except.error (_makeError (match nr.integer with | some e => e | none => none) nr.err)
  else if (match nr.nonzero with | some _ => decide (n = 0) | none => false) then
    Except.error (_makeError (match nr.nonzero with | some e => e | none => none) nr.err)
  else if (match nr.positive with | some _ => decide (n < 0) | none => false) then
    Except.error (_makeError (match nr.positive with | some e => e | none => none) nr.err)
  else if (match nr.min with | some mn => decide (n < mn.value) | none => false) then
    Except.error (_makeError (match nr.min with | some mn => mn.err | none => none) nr.err)
  else if (match nr.max with | some mx => decide (mx.value < n) | none => false) then
    Except.error (_makeError (match nr.max with | some mx => mx.err | none => none) nr.err)
  else Except.ok (JSValue.num n)

/-- The `number` constraint check of a simple rule: a string value is first
coerced with `parseFloat` (an unparseable string yields `NaN`, hence an
error), then the numeric checks run on the coerced value. -/
def checkNumber (value : JSValue) (rule : Option NumberRule) : Except ValidationResult JSValue :=
  match rule with
  | none => Except.ok value
  | some nr =>
    match value with
    | JSValue.str s =>
      match parseFloatModel s with
      | some n => checkNumberValue n nr
      | none => Except.error (_makeError nr.err none)
    | JSValue.num n => checkNumberValue n nr
    | _ => Except.error (_makeError nr.err none)

/-- The `date` constraint check of a simple rule: strings and numbers are
first coerced with `new Date(...)`; a non-date (or invalid date) errors, then
`min`/`max` bounds run on the coerced value. -/
def checkDate (value : JSValue) (rule : Option DateRule) : Except ValidationResult JSValue :=
  match rule with
  | none => Except.ok value
  | some dr =>
    match (match value with
           | JSValue.str s => dateFromString s
           | JSValue.num n => some n
           | JSValue.date t => some t
           | _ => none) with
    | some t =>
      if (match dr.min with | some mn => decide (t < mn.date) | none => false) then
        Except.error (_makeError (match dr.min with | some mn => mn.err | none => none) dr.err)
      else if (match dr.max with | some mx => decide (mx.date < t) | none => false) then
        Except.error (_makeError (match dr.max with | some mx => mx.err | none => none) dr.err)
      else Except.ok (JSValue.date t)
    | none => Except.error (_makeError dr.err none)

/-- The `value` (fixed value set) check of a simple rule, applied to the
value produced by the preceding coercions. -/
def checkValue (value : JSValue) (rule : Option ValueRule) : Except ValidationResult JSValue :=
  match rule with
  | none => Except.ok value
  | some vr =>
    if jsIncludes (vr.match'.getD []) value then Except.ok value
    else Except.error (_makeError vr.err none)

/-- Validation of a value against a simple rule: the five checks run
sequentially, threading the (possibly coerced) value; the first failing
check returns its error. -/
def validateSimple (value : JSValue) (r : SimpleRule) : ValidationResult :=
  match (do
      let v1 ← checkBoolean value r.boolean
      let v2 ← checkString v1 r.string
      let v3 ← checkNumber v2 r.number
      let v4 ← checkDate v3 r.date
      checkValue v4 r.value : Except ValidationResult JSValue) with
  | Except.ok v => ⟨v, none⟩
  | Except.error res => res

/-- The result of `_validateObject`: a validation result together with the
per-field `errors` mapping. -/
structure ObjValidation : Type where
  value : JSValue
  error : Option String
  errors : List (String × JSError)

mutual

/-- Helper function to validate a single value based on a given rule
(`_validate` in ObjectReader.ts, recursive).  A missing rule throws
`RangeError`; a spent recursion budget yields the default error; an optional
rule passes `undefined` through; composite rules recurse with a decremented
budget (`maxRecurse--` in the source: the received value is tested, the
decremented value passed on). -/
def _validate (value : JSValue) (field : FieldKey) (rule? : Option SchemaRule)
    (maxRecurse : Int) : Except JSError ValidationResult :=
  match rule? with
  | none => Except.error JSError.rangeError
  | some rule =>
    if _h0 : maxRecurse < 0 then Except.ok ⟨JSValue.undef, some DEFAULT_ERROR⟩
    else if rule.optional && value.isUndef then Except.ok ⟨JSValue.undef, none⟩
    else
      match rule with
      | SchemaRule.validate _ f => Except.ok (f value field.orUnderscore)
      | SchemaRule.object _ schema err =>
        if value.isObject then
          match _validateObjectGo value.ownEntries schema (maxRecurse - 1) (some []) none [] with
          | Except.ok r => Except.ok ⟨r.value, r.error⟩
          | Except.error e => Except.error e
        else Except.ok (_makeError err none)
      | SchemaRule.array _ items err min max =>
        match value with
        | JSValue.arr elems =>
          if (match min with | some mn => decide ((elems.length : Int) < mn.length) | none => false) then
            Except.ok (_makeError (match min with | some mn => mn.err | none => none) err)
          else if (match max with | some mx => decide (mx.length < (elems.length : Int)) | none => false) then
            Except.ok (_makeError (match max with | some mx => mx.err | none => none) err)
          else _validateArrayGo elems 0 (items.getD emptySchemaRule) (maxRecurse - 1) []
        | _ => Except.ok (_makeError err none)
      | SchemaRule.record _ values err =>
        if value.isObject then
          _validateRecordGo value.ownEntries (values.getD emptySchemaRule) (maxRecurse - 1) []
        else Except.ok (_makeError err none)
      | SchemaRule.simple _ sr => Except.ok (validateSimple value sr)
termination_by (2 * (maxRecurse + 1).toNat, 0)
decreasing_by
  all_goals exact Prod.Lex.left _ _ (by omega)

/-- The field loop of `_validateObject`: validates every schema field in
order, accumulating the parsed fields (dropped after the first failure), the
first truthy error, and one `Error` entry per failing field. -/
def _validateObjectGo (object : List (String × JSValue)) (rules : List (String × SchemaRule))
    (maxRecurse : Int) (result : Option (List (String × JSValue))) (error : Option String)
    (errors : List (String × JSError)) : Except JSError ObjValidation :=
  match rules with
  | [] =>
    Except.ok ⟨(match result with | some l => JSValue.obj l | none => JSValue.undef), error, errors⟩
  | (p, r) :: rest =>
    match _validate ((assocGet object p).getD JSValue.undef) (FieldKey.str p) (some r) maxRecurse with
    | Except.error e => Except.error e
    | Except.ok v =>
      if v.errTruthy then
        _validateObjectGo object rest maxRecurse none
          (match error with
           | none => v.error
           | some s => if s = "" then v.error else some s)
          (errors ++ [(p, JSError.error (v.error.getD ("")))])
      else
        _validateObjectGo object rest maxRecurse
          (match result with | some l => some (l ++ [(p, v.value)]) | none => none)
          error errors
termination_by (2 * (maxRecurse + 1).toNat + 1, rules.length)
decreasing_by
  · exact Prod.Lex.left _ _ (by omega)
  · exact Prod.Lex.right _ (by simp only [List.length_cons]; omega)
  · exact Prod.Lex.right _ (by simp only [List.length_cons]; omega)

/-- The item loop of `_validateArray`: validates each item against the item
rule; a failing item's result is returned immediately. -/
def _validateArrayGo (elems : List JSValue) (idx : Nat) (rule : SchemaRule)
    (maxRecurse : Int) (acc : List JSValue) : Except JSError ValidationResult :=
  match elems with
  | [] => Except.ok ⟨JSValue.arr acc, none⟩
  | x :: rest =>
    match _validate x (FieldKey.idx idx) (some rule) maxRecurse with
    | Except.error e => Except.error e
    | Except.ok v =>
      if v.errTruthy then Except.ok v
      else _validateArrayGo rest (idx + 1) rule maxRecurse (acc ++ [v.value])
termination_by (2 * (maxRecurse + 1).toNat + 1, elems.length)
decreasing_by
  · exact Prod.Lex.left _ _ (by omega)
  · exact Prod.Lex.right _ (by simp only [List.length_cons]; omega)

/-- The entry loop of the `record` branch of `_validate`: applies the value
rule to every enumerable key of the value; a failing entry's result is
returned immediately. -/
def _validateRecordGo (entries : List (String × JSValue)) (valuesRule : SchemaRule)
    (maxRecurse : Int) (acc : List (String × JSValue)) : Except JSError ValidationResult :=
  match entries with
  | [] => Except.ok ⟨JSValue.obj acc, none⟩
  | (k, x) :: rest =>
    match _validate x (FieldKey.str k) (some valuesRule) maxRecurse with
    | Except.error e => Except.error e
    | Except.ok v =>
      if v.errTruthy then Except.ok v
      else _validateRecordGo rest valuesRule maxRecurse (acc ++ [(k, v.value)])
termination_by (2 * (maxRecurse + 1).toNat + 1, entries.length)
decreasing_by
  · exact Prod.Lex.left _ _ (by omega)
  · exact Prod.Lex.right _ (by simp only [List.length_cons]; omega)

end

/-- Helper function to validate an object with given schema, returns both a
single and multiple errors (`_validateObject` in ObjectReader.ts). -/
def _validateObject (object : List (String × JSValue)) (rules : List (String × SchemaRule))
    (maxRecurse : Int) : Except JSError ObjValidation :=
  _validateObjectGo object rules maxRecurse (some []) none []

/-- Helper function to validate an array with items that match a given rule
(`_validateArray` in ObjectReader.ts). -/
def _validateArray (elems : List JSValue) (rule : SchemaRule) (maxRecurse : Int) :
    Except JSError ValidationResult :=
  _validateArrayGo elems 0 rule maxRecurse []

/-- Parses and validates the specified object (`ObjectReader.read`): rejects
a non-object immediately with a `TypeError` keyed under `_`, otherwise runs
the schema over the object and returns the parsed value plus the per-field
errors mapping. -/
def ObjectReader.read (schema : List (String × SchemaRule)) (object : JSValue) :
    Except JSError (JSValue × List (String × JSError)) :=
  if object.isObject then
    match _validateObject object.ownEntries schema MAX_RECURSE with
    | Except.ok v => Except.ok (v.value, v.errors)
    | Except.error e => Except.error e
  else Except.ok (JSValue.undef, [(("_"), JSError.typeError (""))])

/-- Parses and validates a particular field of the specified object
(`ObjectReader.readField`): returns the parsed field value or an error. -/
def ObjectReader.readField (schema : List (String × SchemaRule)) (object : JSValue)
    (field : String) : Except JSError (JSValue × Option JSError) :=
  if object.isObject then
    match _validate ((assocGet object.ownEntries field).getD JSValue.undef) (FieldKey.str field)
        (assocGet schema field) MAX_RECURSE with
    | Except.error e => Except.error e
    | Except.ok v =>
      if v.errTruthy then Except.ok (JSValue.undef, some (JSError.error (v.error.getD (""))))
      else Except.ok (v.value, none)
  else Except.ok (JSValue.undef, some (JSError.typeError ("")))

/-- Parses and validates the object encoded in a JSON string
(`ObjectReader.readJSONString`).  The host `JSON.parse` builtin is passed in
as a function; an exception thrown by parsing (or by `read`) is caught and
stored under the reserved `_` key.  The `err instanceof Error` test of the
source is the identity here because every modelled thrown value is an
`Error`. -/
def ObjectReader.readJSONString (schema : List (String × SchemaRule))
    (parse : String → Except JSError JSValue) (json : String) :
    JSValue × List (String × JSError) :=
  match (parse json).bind (fun v => ObjectReader.read schema v) with
  | Except.ok r => r
  | Except.error err => (JSValue.undef, [(("_"), err)])

/-- The object field loop returns normally whenever every single-field
validation at the same budget returns normally. -/
theorem _validateObjectGo_isOk (object : List (String × JSValue)) (m : Int)
    (h : ∀ v f r, ∃ res, _validate v f (some r) m = Except.ok res) :
    ∀ (rules : List (String × SchemaRule)) (result : Option (List (String × JSValue)))
      (error : Option String) (errors : List (String × JSError)),
      ∃ out, _validateObjectGo object rules m result error errors = Except.ok out := by
  intro rules
  induction rules with
  | nil =>
    intro result error errors
    unfold _validateObjectGo
    simp
  | cons pr rest ih =>
    intro result error errors
    obtain ⟨p, r⟩ := pr
    obtain ⟨res, hres⟩ := h ((assocGet object p).getD JSValue.undef) (FieldKey.str p) r
    unfold _validateObjectGo
    rw [hres]
    by_cases ht : res.errTruthy = true
    · simp only [ht, if_true]
      exact ih _ _ _
    · simp only [ht, Bool.false_eq_true, if_false]
      exact ih _ _ _

/-- The array item loop returns normally whenever every single-item
validation at the same budget returns normally. -/
theorem _validateArrayGo_isOk (rule : SchemaRule) (m : Int)
    (h : ∀ v f r, ∃ res, _validate v f (some r) m = Except.ok res) :
    ∀ (elems : List JSValue) (idx : Nat) (acc : List JSValue),
      ∃ out, _validateArrayGo elems idx rule m acc = Except.ok out := by
  intro elems
  induction elems with
  | nil =>
    intro idx acc
    unfold _validateArrayGo
    simp
  | cons x rest ih =>
    intro idx acc
    obtain ⟨res, hres⟩ := h x (FieldKey.idx idx) rule
    unfold _validateArrayGo
    rw [hres]
    by_cases ht : res.errTruthy = true
    · simp [ht]
    · simp only [ht, Bool.false_eq_true, if_false]
      exact ih _ _

/-- The record entry loop returns normally whenever every single-entry
validation at the same budget returns normally. -/
theorem _validateRecordGo_isOk (rule : SchemaRule) (m : Int)
    (h : ∀ v f r, ∃ res, _validate v f (some r) m = Except.ok res) :
    ∀ (entries : List (String × JSValue)) (acc : List (String × JSValue)),
      ∃ out, _validateRecordGo entries rule m acc = Except.ok out := by
  intro entries
  induction entries with
  | nil =>
    intro acc
    unfold _validateRecordGo
    simp
  | cons kv rest ih =>
    intro acc
    obtain ⟨k, x⟩ := kv
    obtain ⟨res, hres⟩ := h x (FieldKey.str k) rule
    unfold _validateRecordGo
    rw [hres]
    by_cases ht : res.errTruthy = true
    · simp [ht]
    · simp only [ht, Bool.false_eq_true, if_false]
      exact ih _

/-- Strong-induction core of the no-throw property of `_validate`. -/
theorem _validate_isOkAux : ∀ (k : Nat) (m : Int), (m + 1).toNat ≤ k →
    ∀ (v : JSValue) (f : FieldKey) (r : SchemaRule),
      ∃ res, _validate v f (some r) m = Except.ok res := by
  intro k
  induction k with
  | zero =>
    intro m hm v f r
    have hneg : m < 0 := by omega
    unfold _validate; simp [hneg]
  | succ k ih =>
    intro m hm v f r
    by_cases hneg : m < 0
    · unfold _validate; simp [hneg]
    · have hrec : ∀ v' f' r', ∃ res, _validate v' f' (some r') (m - 1) = Except.ok res :=
        fun v' f' r' => ih (m - 1) (by omega) v' f' r'
      by_cases hopt : (r.optional && v.isUndef) = true
      · unfold _validate; simp [hneg, hopt]
      · cases r with
        | validate o fn =>
          unfold _validate; simp [hneg, hopt]
        | object o schema err =>
          by_cases hobj : v.isObject = true
          · obtain ⟨out, hout⟩ :=
              _validateObjectGo_isOk v.ownEntries (m - 1) hrec schema (some []) none []
            unfold _validate; simp [hneg, hopt, hobj, hout]
          · unfold _validate; simp [hneg, hopt, hobj]
        | array o items err min max =>
          cases v with
          | arr elems =>
            obtain ⟨out, hout⟩ :=
              _validateArrayGo_isOk (items.getD emptySchemaRule) (m - 1) hrec elems 0 []
            unfold _validate
            simp [hneg, hopt, hout]
            repeat' split
            all_goals simp
          | undef => unfold _validate; simp [hneg, hopt]
          | null => unfold _validate; simp [hneg, hopt]
          | bool b => unfold _validate; simp [hneg, hopt]
          | num n => unfold _validate; simp [hneg, hopt]
          | str s => unfold _validate; simp [hneg, hopt]
          | date t => unfold _validate; simp [hneg, hopt]
          | obj fields => unfold _validate; simp [hneg, hopt]
        | record o values err =>
          by_cases hobj : v.isObject = true
          · obtain ⟨out, hout⟩ :=
              _validateRecordGo_isOk (values.getD emptySchemaRule) (m - 1) hrec v.ownEntries []
            unfold _validate; simp [hneg, hopt, hobj, hout]
          · unfold _validate; simp [hneg, hopt, hobj]
        | simple o sr =>
          unfold _validate; simp [hneg, hopt]

/-- Validation with a present rule never throws: `_validate` only throws its
`RangeError` when the rule is missing (`!rule`).  Custom validator functions
are total in the model, so their `TypeError` guard is unreachable. -/
theorem _validate_isOk (v : JSValue) (f : FieldKey) (r : SchemaRule) (m : Int) :
    ∃ res, _validate v f (some r) m = Except.ok res :=
  _validate_isOkAux ((m + 1).toNat) m (Nat.le_refl _) v f r

/-- The normal-return value of `_validate` on a present rule. -/
def validateR (v : JSValue) (f : FieldKey) (r : SchemaRule) (m : Int) : ValidationResult :=
  match _validate v f (some r) m with
  | Except.ok res => res
  | Except.error _ => ⟨JSValue.undef, none⟩

/-- Validation with a present rule computes `validateR`. -/
theorem _validate_eq_ok (v : JSValue) (f : FieldKey) (r : SchemaRule) (m : Int) :
    _validate v f (some r) m = Except.ok (validateR v f r m) := by
  obtain ⟨res, hres⟩ := _validate_isOk v f r m
  simp [validateR, hres]

/-- The validation result of one schema field of an object. -/
def fieldResult (object : List (String × JSValue)) (p : String) (r : SchemaRule) (m : Int) :
    ValidationResult :=
  validateR ((assocGet object p).getD JSValue.undef) (FieldKey.str p) r m

/-- Whether one schema field of an object fails validation (its result's
`error` is truthy). -/
def fieldFails (object : List (String × JSValue)) (p : String) (r : SchemaRule) (m : Int) : Bool :=
  (fieldResult object p r m).errTruthy

/-- The schema entries whose field fails validation, in schema order. -/
def failingFields (object : List (String × JSValue)) (rules : List (String × SchemaRule))
    (m : Int) : List (String × SchemaRule) :=
  rules.filter (fun pr => fieldFails object pr.1 pr.2 m)

/-- The parsed (coerced) value of every schema field, in schema order. -/
def parsedFields (object : List (String × JSValue)) (rules : List (String × SchemaRule))
    (m : Int) : List (String × JSValue) :=
  rules.map (fun pr => (pr.1, (fieldResult object pr.1 pr.2 m).value))

/-- The `errors` mapping produced by `_validateObject`: one `Error` entry per
failing field, in schema order. -/
def errorEntries (object : List (String × JSValue)) (rules : List (String × SchemaRule))
    (m : Int) : List (String × JSError) :=
  (failingFields object rules m).map
    (fun pr => (pr.1, JSError.error ((fieldResult object pr.1 pr.2 m).error.getD (""))))

/-- Closed form of the object field loop once the parsed-result accumulator
has been dropped: the value stays `undefined` and every failing field
appends its error entry. -/
theorem _validateObjectGo_none_spec (object : List (String × JSValue)) (m : Int) :
    ∀ (rules : List (String × SchemaRule)) (error : Option String)
      (errors : List (String × JSError)),
      ∃ e', _validateObjectGo object rules m none error errors =
        Except.ok ⟨JSValue.undef, e', errors ++ errorEntries object rules m⟩ := by
  intro rules
  induction rules with
  | nil =>
    intro error errors
    refine ⟨error, ?_⟩
    unfold _validateObjectGo
    simp [errorEntries, failingFields]
  | cons pr rest ih =>
    intro error errors
    obtain ⟨p, r⟩ := pr
    unfold _validateObjectGo
    rw [_validate_eq_ok]
    by_cases ht : fieldFails object p r m = true
    · obtain ⟨e', he⟩ := ih
        (match error with
         | none => (fieldResult object p r m).error
         | some s => if s = "" then (fieldResult object p r m).error else some s)
        (errors ++ [(p, JSError.error ((fieldResult object p r m).error.getD ("")))])
      refine ⟨e', ?_⟩
      have ht' : (validateR ((assocGet object p).getD JSValue.undef) (FieldKey.str p) r m).errTruthy = true := ht
      simp only [ht', if_true]
      rw [show (validateR ((assocGet object p).getD JSValue.undef) (FieldKey.str p) r m) =
        fieldResult object p r m from rfl]
      rw [he]
      have herr : errorEntries object ((p, r) :: rest) m =
          (p, JSError.error ((fieldResult object p r m).error.getD (""))) ::
            errorEntries object rest m := by
        simp [errorEntries, failingFields, List.filter_cons, ht]
      rw [herr]
      simp
    · have htf : fieldFails object p r m = false := by simpa using ht
      obtain ⟨e', he⟩ := ih error errors
      refine ⟨e', ?_⟩
      have ht' : (validateR ((assocGet object p).getD JSValue.undef) (FieldKey.str p) r m).errTruthy = false := htf
      simp only [ht', Bool.false_eq_true, if_false]
      rw [he]
      have herr : errorEntries object ((p, r) :: rest) m = errorEntries object rest m := by
        simp [errorEntries, failingFields, List.filter_cons, htf]
      rw [herr]

/-- Closed form of the object field loop with a live parsed-result
accumulator: if no field fails the parsed fields are appended in schema
order, otherwise the value collapses to `undefined`; failing fields append
their error entries either way. -/
theorem _validateObjectGo_some_spec (object : List (String × JSValue)) (m : Int) :
    ∀ (rules : List (String × SchemaRule)) (acc : List (String × JSValue))
      (error : Option String) (errors : List (String × JSError)),
      ∃ e', _validateObjectGo object rules m (some acc) error errors =
        Except.ok ⟨(match failingFields object rules m with
            | [] => JSValue.obj (acc ++ parsedFields object rules m)
            | _ :: _ => JSValue.undef),
          e', errors ++ errorEntries object rules m⟩ := by
  intro rules
  induction rules with
  | nil =>
    intro acc error errors
    refine ⟨error, ?_⟩
    unfold _validateObjectGo
    simp [errorEntries, failingFields, parsedFields]
  | cons pr rest ih =>
    intro acc error errors
    obtain ⟨p, r⟩ := pr
    unfold _validateObjectGo
    rw [_validate_eq_ok]
    by_cases ht : fieldFails object p r m = true
    · obtain ⟨e', he⟩ := _validateObjectGo_none_spec object m rest
        (match error with
         | none => (fieldResult object p r m).error
         | some s => if s = "" then (fieldResult object p r m).error else some s)
        (errors ++ [(p, JSError.error ((fieldResult object p r m).error.getD ("")))])
      refine ⟨e', ?_⟩
      have ht' : (validateR ((assocGet object p).getD JSValue.undef) (FieldKey.str p) r m).errTruthy = true := ht
      simp only [ht', if_true]
      rw [show (validateR ((assocGet object p).getD JSValue.undef) (FieldKey.str p) r m) =
        fieldResult object p r m from rfl]
      rw [he]
      have hfail : failingFields object ((p, r) :: rest) m =
          (p, r) :: failingFields object rest m := by
        simp [failingFields, List.filter_cons, ht]
      have herr : errorEntries object ((p, r) :: rest) m =
          (p, JSError.error ((fieldResult object p r m).error.getD (""))) ::
            errorEntries object rest m := by
        simp [errorEntries, failingFields, List.filter_cons, ht]
      rw [hfail, herr]
      simp
    · have htf : fieldFails object p r m = false := by simpa using ht
      obtain ⟨e', he⟩ := ih (acc ++ [(p, (fieldResult object p r m).value)]) error errors
      refine ⟨e', ?_⟩
      have ht' : (validateR ((assocGet object p).getD JSValue.undef) (FieldKey.str p) r m).errTruthy = false := htf
      simp only [ht', Bool.false_eq_true, if_false]
      rw [show (validateR ((assocGet object p).getD JSValue.undef) (FieldKey.str p) r m) =
        fieldResult object p r m from rfl]
      rw [he]
      have hfail : failingFields object ((p, r) :: rest) m = failingFields object rest m := by
        simp [failingFields, List.filter_cons, htf]
      have herr : errorEntries object ((p, r) :: rest) m = errorEntries object rest m := by
        simp [errorEntries, hfail]
      have hpar : parsedFields object ((p, r) :: rest) m =
          (p, (fieldResult object p r m).value) :: parsedFields object rest m := by
        simp [parsedFields]
      rw [hfail, herr, hpar]
      simp

/-- Master equation for `ObjectReader.read` on an object input: the parsed
value is the full list of parsed fields when no field fails and `undefined`
otherwise, and the errors mapping holds one entry per failing field. -/
theorem ObjectReader.read_eq (schema : List (String × SchemaRule)) (object : JSValue)
    (hobj : object.isObject = true) :
    ObjectReader.read schema object = Except.ok
      ((match failingFields object.ownEntries schema MAX_RECURSE with
        | [] => JSValue.obj (parsedFields object.ownEntries schema MAX_RECURSE)
        | _ :: _ => JSValue.undef),
        errorEntries object.ownEntries schema MAX_RECURSE) := by
  obtain ⟨e', he⟩ := _validateObjectGo_some_spec object.ownEntries MAX_RECURSE schema [] none []
  simp only [ObjectReader.read, hobj, if_true, _validateObject, he]
  simp

/-- In an association list with no duplicate keys, a key determines its
value. -/
theorem assocNodupEq {α : Type} : ∀ (l : List (String × α)), (l.map Prod.fst).Nodup →
    ∀ (p : String) (a b : α), (p, a) ∈ l → (p, b) ∈ l → a = b := by
  intro l
  induction l with
  | nil => intro _ p a b ha _; cases ha
  | cons x rest ih =>
    intro hnd p a b ha hb
    have hnd1 : x.1 ∉ rest.map Prod.fst := by
      simp only [List.map_cons, List.nodup_cons] at hnd
      exact hnd.1
    have hnd2 : (rest.map Prod.fst).Nodup := by
      simp only [List.map_cons, List.nodup_cons] at hnd
      exact hnd.2
    rcases List.mem_cons.mp ha with ha1 | ha2
    · rcases List.mem_cons.mp hb with hb1 | hb2
      · have heq : (p, a) = (p, b) := ha1.trans hb1.symm
        injection heq with h1 h2
      · rw [← ha1] at hnd1
        exact absurd (List.mem_map.mpr ⟨(p, b), hb2, rfl⟩) hnd1
    · rcases List.mem_cons.mp hb with hb1 | hb2
      · rw [← hb1] at hnd1
        exact absurd (List.mem_map.mpr ⟨(p, a), ha2, rfl⟩) hnd1
      · exact ih hnd2 p a b ha2 hb2

/-- An optional rule passes an absent (`undefined`) field through as
`undefined` with no error, as long as the budget is not spent. -/
theorem validateR_optional_absent (f : FieldKey) (r : SchemaRule) (m : Int)
    (hopt : r.optional = true) (hm : ¬ m < 0) :
    validateR JSValue.undef f r m = ⟨JSValue.undef, none⟩ := by
  have h : _validate JSValue.undef f (some r) m = Except.ok ⟨JSValue.undef, none⟩ := by
    unfold _validate
    simp [hm, hopt, JSValue.isUndef]
  simp [validateR, h]

/-- The keys of the error entries are exactly the failing field names. -/
theorem errorEntries_keys (object : List (String × JSValue))
    (rules : List (String × SchemaRule)) (m : Int) :
    (errorEntries object rules m).map Prod.fst = (failingFields object rules m).map Prod.fst := by
  simp [errorEntries, List.map_map]

/-- C1: for every schema and non-array object input, `read` returns the
fully populated parsed object with an empty errors mapping exactly when
every schema field validates cleanly; on any failure the value is
`undefined` and the errors mapping holds an entry for every failing field
(never both a parsed object and errors). -/
theorem read_aggregate_result (schema : List (String × SchemaRule)) (object : JSValue)
    (hobj : object.isObject = true) (hnd : (schema.map Prod.fst).Nodup) :
    ∃ val errs, ObjectReader.read schema object = Except.ok (val, errs) ∧
      ((∀ p r, (p, r) ∈ schema → fieldFails object.ownEntries p r MAX_RECURSE = false) →
        val = JSValue.obj (parsedFields object.ownEntries schema MAX_RECURSE) ∧ errs = []) ∧
      (errs = [] ↔ ∀ p r, (p, r) ∈ schema → fieldFails object.ownEntries p r MAX_RECURSE = false) ∧
      ((∃ p r, (p, r) ∈ schema ∧ fieldFails object.ownEntries p r MAX_RECURSE = true) →
        val = JSValue.undef ∧
          ∀ p r, (p, r) ∈ schema →
            (fieldFails object.ownEntries p r MAX_RECURSE = true ↔ p ∈ errs.map Prod.fst)) ∧
      ¬(val ≠ JSValue.undef ∧ errs ≠ []) := by
  have hread := ObjectReader.read_eq schema object hobj
  refine ⟨_, _, hread, ?_, ?_, ?_, ?_⟩
  · intro hclean
    have hF : failingFields object.ownEntries schema MAX_RECURSE = [] := by
      simp only [failingFields, List.filter_eq_nil_iff]
      intro pr hpr
      simp [hclean pr.1 pr.2 hpr]
    constructor
    · rw [hF]
    · simp [errorEntries, hF]
  · constructor
    · intro hE
      have hF : failingFields object.ownEntries schema MAX_RECURSE = [] := by
        have := congrArg (List.map Prod.fst) hE
        rw [errorEntries_keys] at this
        simpa using this
      rw [failingFields, List.filter_eq_nil_iff] at hF
      intro p r hpr
      simpa using hF (p, r) hpr
    · intro hclean
      have hF : failingFields object.ownEntries schema MAX_RECURSE = [] := by
        simp only [failingFields, List.filter_eq_nil_iff]
        intro pr hpr
        simp [hclean pr.1 pr.2 hpr]
      simp [errorEntries, hF]
  · rintro ⟨p, r, hpr, hfail⟩
    have hmem : (p, r) ∈ failingFields object.ownEntries schema MAX_RECURSE :=
      List.mem_filter.mpr ⟨hpr, hfail⟩
    have hne : failingFields object.ownEntries schema MAX_RECURSE ≠ [] := by
      intro h
      rw [h] at hmem
      cases hmem
    constructor
    · cases hFc : failingFields object.ownEntries schema MAX_RECURSE with
      | nil => exact absurd hFc hne
      | cons x xs => rfl
    · intro q s hqs
      constructor
      · intro hq
        have : (q, s) ∈ failingFields object.ownEntries schema MAX_RECURSE :=
          List.mem_filter.mpr ⟨hqs, hq⟩
        rw [errorEntries_keys]
        exact List.mem_map.mpr ⟨(q, s), this, rfl⟩
      · intro hq
        rw [errorEntries_keys] at hq
        obtain ⟨⟨q', s'⟩, hmem', hfst⟩ := List.mem_map.mp hq
        have hs' : (q, s') ∈ failingFields object.ownEntries schema MAX_RECURSE := by
          cases hfst
          exact hmem'
        have h1 := List.mem_filter.mp hs'
        have : s' = s := assocNodupEq schema hnd q s' s h1.1 hqs
        rw [← this]
        exact h1.2
  · rintro ⟨hval, herrs⟩
    cases hFc : failingFields object.ownEntries schema MAX_RECURSE with
    | nil => exact herrs (by simp [errorEntries, hFc])
    | cons x xs => exact hval (by rw [hFc])

/-- A family of nested object rules: `nestedRule n` requires `n` levels of
`{ a: ... }` nesting around a plain number. -/
def nestedRule : Nat → SchemaRule
  | 0 => emptySchemaRule
  | n + 1 => SchemaRule.object false [(("a"), nestedRule n)] none

/-- A family of nested object values matching `nestedRule`. -/
def nestedValue : Nat → JSValue
  | 0 => JSValue.num 1
  | n + 1 => JSValue.obj [(("a"), nestedValue n)]

/-- Validating a value nested `n` levels deep consumes exactly `n + 1` units
of the recursion budget: it fails exactly when the budget `m` is below
`n`. -/
theorem nested_validate_spec : ∀ (n : Nat) (m : Int) (f : FieldKey),
    ∃ r, _validate (nestedValue n) f (some (nestedRule n)) m = Except.ok r ∧
      (r.errTruthy = true ↔ m < (n : Int)) := by
  intro n
  induction n with
  | zero =>
    intro m f
    by_cases hm : m < 0
    · refine ⟨⟨JSValue.undef, some DEFAULT_ERROR⟩, ?_, ?_⟩
      · unfold _validate
        simp [nestedRule, nestedValue, hm]
      · simp [ValidationResult.errTruthy, DEFAULT_ERROR, hm]
    · refine ⟨⟨JSValue.num 1, none⟩, ?_, ?_⟩
      · unfold _validate
        simp [nestedRule, nestedValue, hm, emptySchemaRule, SchemaRule.optional, JSValue.isUndef,
          validateSimple, checkBoolean, checkString, checkNumber, checkDate, checkValue, bind,
          Except.bind]
      · simp [ValidationResult.errTruthy]
        omega
  | succ n ihn =>
    intro m f
    by_cases hm : m < 0
    · refine ⟨⟨JSValue.undef, some DEFAULT_ERROR⟩, ?_, ?_⟩
      · unfold _validate
        simp [nestedRule, nestedValue, hm]
      · simp [ValidationResult.errTruthy, DEFAULT_ERROR]
        omega
    · obtain ⟨r', hr', hiff⟩ := ihn (m - 1) (FieldKey.str ("a"))
      have hassoc : (assocGet [(("a"), nestedValue n)] ("a")).getD JSValue.undef = nestedValue n := by
        simp [assocGet]
      by_cases hf : r'.errTruthy = true
      · have hgo : _validateObjectGo [(("a"), nestedValue n)] [(("a"), nestedRule n)] (m - 1)
            (some []) none [] =
            Except.ok ⟨JSValue.undef,
              (match (none : Option String) with
               | none => r'.error
               | some s => if s = "" then r'.error else some s),
              [] ++ [(("a"), JSError.error (r'.error.getD ("")))]⟩ := by
          unfold _validateObjectGo
          rw [hassoc, hr']
          simp only [hf, if_true]
          unfold _validateObjectGo
          rfl
        refine ⟨⟨JSValue.undef, r'.error⟩, ?_, ?_⟩
        · unfold _validate
          simp only [nestedRule, nestedValue] at hgo ⊢
          simp [hm, SchemaRule.optional, JSValue.isUndef, JSValue.isObject, JSValue.ownEntries, hgo]
        · have h1 : (⟨JSValue.undef, r'.error⟩ : ValidationResult).errTruthy = r'.errTruthy := by
            simp [ValidationResult.errTruthy]
          rw [h1, hf]
          have h2 : m - 1 < (n : Int) := hiff.mp hf
          simp only [true_iff]
          push_cast
          omega
      · have hgo : _validateObjectGo [(("a"), nestedValue n)] [(("a"), nestedRule n)] (m - 1)
            (some []) none [] =
            Except.ok ⟨JSValue.obj ([] ++ [(("a"), r'.value)]), none, []⟩ := by
          unfold _validateObjectGo
          rw [hassoc, hr']
          simp only [hf, Bool.false_eq_true, if_false]
          unfold _validateObjectGo
          rfl
        refine ⟨⟨JSValue.obj [(("a"), r'.value)], none⟩, ?_, ?_⟩
        · unfold _validate
          simp only [nestedRule, nestedValue] at hgo ⊢
          simp [hm, SchemaRule.optional, JSValue.isUndef, JSValue.isObject, JSValue.ownEntries, hgo]
        · have h1 : (⟨JSValue.obj [(("a"), r'.value)], none⟩ : ValidationResult).errTruthy = false := by
            simp [ValidationResult.errTruthy]
          rw [h1]
          have h2 : ¬ (m - 1 < (n : Int)) := fun hc => hf (hiff.mpr hc)
          simp only [Bool.false_eq_true, false_iff]
          push_cast
          omega

/-- C2: validation terminates under a fixed budget: a spent budget yields a
validation error instead of recursing; validating the `n`-level nested
family consumes one budget unit per nesting level and fails exactly when the
budget is below `n`; through `read` (initial budget `MAX_RECURSE = 100`) the
nested input validates exactly up to depth 100. -/
theorem validation_depth_bounded (n : Nat) (m : Int) (value : JSValue) (f g : FieldKey)
    (rule : SchemaRule) :
    (m < 0 → _validate value f (some rule) m = Except.ok ⟨JSValue.undef, some DEFAULT_ERROR⟩) ∧
    (∃ r, _validate (nestedValue n) g (some (nestedRule n)) m = Except.ok r ∧
      (r.errTruthy = true ↔ m < (n : Int))) ∧
    (∃ val errs, ObjectReader.read [(("root"), nestedRule n)]
        (JSValue.obj [(("root"), nestedValue n)]) = Except.ok (val, errs) ∧
      (errs = [] ↔ (n : Int) ≤ MAX_RECURSE)) := by
  refine ⟨?_, nested_validate_spec n m g, ?_⟩
  · intro hm
    unfold _validate
    simp [hm]
  · have hread := ObjectReader.read_eq [(("root"), nestedRule n)]
      (JSValue.obj [(("root"), nestedValue n)]) rfl
    obtain ⟨r, hr, hiff⟩ := nested_validate_spec n MAX_RECURSE (FieldKey.str ("root"))
    have hfr : fieldResult (JSValue.obj [(("root"), nestedValue n)]).ownEntries ("root")
        (nestedRule n) MAX_RECURSE = r := by
      simp [fieldResult, JSValue.ownEntries, assocGet, validateR, hr]
    by_cases hf : r.errTruthy = true
    · have hff : fieldFails (JSValue.obj [(("root"), nestedValue n)]).ownEntries ("root")
          (nestedRule n) MAX_RECURSE = true := by
        simp [fieldFails, hfr, hf]
      have hE : errorEntries (JSValue.obj [(("root"), nestedValue n)]).ownEntries
          [(("root"), nestedRule n)] MAX_RECURSE =
          [(("root"), JSError.error (r.error.getD ("")))] := by
        simp [errorEntries, failingFields, List.filter_cons, hff, hfr]
      refine ⟨_, _, hread, ?_⟩
      rw [hE]
      simp only [List.cons_ne_self]
      have h2 := hiff.mp hf
      constructor
      · intro h3
        cases h3
      · intro h3
        have : ¬ ((n : Int) ≤ MAX_RECURSE) := by omega
        exact absurd h3 this
    · have hff : fieldFails (JSValue.obj [(("root"), nestedValue n)]).ownEntries ("root")
          (nestedRule n) MAX_RECURSE = false := by
        simp only [fieldFails, hfr]
        simpa using hf
      have hE : errorEntries (JSValue.obj [(("root"), nestedValue n)]).ownEntries
          [(("root"), nestedRule n)] MAX_RECURSE = [] := by
        simp [errorEntries, failingFields, List.filter_cons, hff]
      refine ⟨_, _, hread, ?_⟩
      rw [hE]
      have : ¬ (MAX_RECURSE < (n : Int)) := fun hc => hf (hiff.mpr hc)
      simp only [true_iff]
      omega

/-- Witness: with a spent budget (`-1`), validation returns the default
validation error rather than recursing. -/
theorem validation_depth_bounded_witness :
    _validate JSValue.null (FieldKey.str ("x")) (some emptySchemaRule) (-1) =
      Except.ok ⟨JSValue.undef, some DEFAULT_ERROR⟩ :=
  (validation_depth_bounded 0 (-1) JSValue.null (FieldKey.str ("x")) (FieldKey.str ("x"))
    emptySchemaRule).1 (by decide)

/-- The schema rule `{ string: { min: { length: 2 } } }` of the spec's
worked example. -/
def nameMin2Rule : SchemaRule :=
  SchemaRule.simple false ⟨none, some ⟨none, none, none, some ⟨2, none⟩, none⟩, none, none, none⟩

/-- Witness for the aggregate-result theorem at the spec's worked example
(`{ name: { string: { min: { length: 2 } } } }` against `{ name: "A" }`). -/
theorem read_aggregate_result_witness :
    ∃ val errs,
      ObjectReader.read [(("name"), nameMin2Rule)]
          (JSValue.obj [(("name"), JSValue.str ("A"))]) = Except.ok (val, errs) ∧
      ((∀ p r, (p, r) ∈ [(("name"), nameMin2Rule)] →
          fieldFails (JSValue.obj [(("name"), JSValue.str ("A"))]).ownEntries p r MAX_RECURSE = false) →
        val = JSValue.obj (parsedFields (JSValue.obj [(("name"), JSValue.str ("A"))]).ownEntries
          [(("name"), nameMin2Rule)] MAX_RECURSE) ∧ errs = []) ∧
      (errs = [] ↔ ∀ p r, (p, r) ∈ [(("name"), nameMin2Rule)] →
        fieldFails (JSValue.obj [(("name"), JSValue.str ("A"))]).ownEntries p r MAX_RECURSE = false) ∧
      ((∃ p r, (p, r) ∈ [(("name"), nameMin2Rule)] ∧
          fieldFails (JSValue.obj [(("name"), JSValue.str ("A"))]).ownEntries p r MAX_RECURSE = true) →
        val = JSValue.undef ∧
          ∀ p r, (p, r) ∈ [(("name"), nameMin2Rule)] →
            (fieldFails (JSValue.obj [(("name"), JSValue.str ("A"))]).ownEntries p r MAX_RECURSE = true ↔
              p ∈ errs.map Prod.fst)) ∧
      ¬(val ≠ JSValue.undef ∧ errs ≠ []) :=
  read_aggregate_result [(("name"), nameMin2Rule)]
    (JSValue.obj [(("name"), JSValue.str ("A"))]) rfl (by simp)

/-- The keys of the parsed fields are exactly the schema's keys. -/
theorem parsedFields_keys (object : List (String × JSValue))
    (rules : List (String × SchemaRule)) (m : Int) :
    (parsedFields object rules m).map Prod.fst = rules.map Prod.fst := by
  simp [parsedFields, List.map_map]

/-- Counterexample: a field with the empty (non-`optional`) simple rule `{}`
that is absent from the input passes validation as `undefined` — passing as
`undefined` is not limited to rules marked `optional`. -/
theorem read_nonoptional_undef_counterexample :
    ObjectReader.read [(("a"), emptySchemaRule)] (JSValue.obj []) =
      Except.ok (JSValue.obj [(("a"), JSValue.undef)], []) ∧
    emptySchemaRule.optional = false := by
  constructor
  · simp [ObjectReader.read, _validateObject, _validateObjectGo, _validate, emptySchemaRule,
      JSValue.isObject, JSValue.ownEntries, assocGet, validateSimple, checkBoolean, checkString,
      checkNumber, checkDate, checkValue, ValidationResult.errTruthy, SchemaRule.optional,
      JSValue.isUndef, MAX_RECURSE, bind, Except.bind]
  · rfl

/-- C10 (amended): a successful `read` result contains exactly the schema's
keys; input fields outside the schema never appear in the result and never
produce an error; a schema field absent from the input is validated against
`undefined`, and passes as `undefined` whenever its rule is optional (among
other cases). -/
theorem read_result_keys (schema : List (String × SchemaRule)) (object : JSValue)
    (hobj : object.isObject = true) :
    ∃ val errs, ObjectReader.read schema object = Except.ok (val, errs) ∧
      (∀ l, val = JSValue.obj l → l.map Prod.fst = schema.map Prod.fst) ∧
      (∀ p, p ∈ errs.map Prod.fst → p ∈ schema.map Prod.fst) ∧
      (∀ p, p ∉ schema.map Prod.fst →
        p ∉ errs.map Prod.fst ∧ ∀ l, val = JSValue.obj l → p ∉ l.map Prod.fst) ∧
      (∀ p r, (p, r) ∈ schema → r.optional = true → assocGet object.ownEntries p = none →
        fieldResult object.ownEntries p r MAX_RECURSE = ⟨JSValue.undef, none⟩) := by
  have hread := ObjectReader.read_eq schema object hobj
  have hkeysVal : ∀ l, (match failingFields object.ownEntries schema MAX_RECURSE with
      | [] => JSValue.obj (parsedFields object.ownEntries schema MAX_RECURSE)
      | _ :: _ => JSValue.undef) = JSValue.obj l → l.map Prod.fst = schema.map Prod.fst := by
    intro l hl
    cases hFc : failingFields object.ownEntries schema MAX_RECURSE with
    | nil =>
      rw [hFc] at hl
      injection hl with h
      rw [← h]
      exact parsedFields_keys _ _ _
    | cons x xs =>
      rw [hFc] at hl
      cases hl
  have hkeysErrs : ∀ p, p ∈ (errorEntries object.ownEntries schema MAX_RECURSE).map Prod.fst →
      p ∈ schema.map Prod.fst := by
    intro p hp
    rw [errorEntries_keys] at hp
    obtain ⟨⟨q, s⟩, hmem, h⟩ := List.mem_map.mp hp
    cases h
    exact List.mem_map.mpr ⟨(q, s), (List.mem_filter.mp hmem).1, rfl⟩
  refine ⟨_, _, hread, hkeysVal, hkeysErrs, ?_, ?_⟩
  · intro p hp
    refine ⟨fun hc => hp (hkeysErrs p hc), fun l hl hc => hp ?_⟩
    rw [← hkeysVal l hl]
    exact hc
  · intro p r hpr hopt habs
    have hget : (assocGet object.ownEntries p).getD JSValue.undef = JSValue.undef := by
      rw [habs]
      rfl
    simp only [fieldResult, hget]
    exact validateR_optional_absent _ _ _ hopt (by decide)

/-- An optional empty rule, used to witness the optional-absent clause. -/
def optionalEmptyRule : SchemaRule :=
  SchemaRule.simple true ⟨none, none, none, none, none⟩

/-- Witness for the result-keys theorem at a concrete schema and input. -/
theorem read_result_keys_witness :
    ∃ val errs, ObjectReader.read [(("a"), optionalEmptyRule)]
        (JSValue.obj [(("b"), JSValue.num 1)]) = Except.ok (val, errs) ∧
      (∀ l, val = JSValue.obj l → l.map Prod.fst = [(("a"), optionalEmptyRule)].map Prod.fst) ∧
      (∀ p, p ∈ errs.map Prod.fst → p ∈ [(("a"), optionalEmptyRule)].map Prod.fst) ∧
      (∀ p, p ∉ [(("a"), optionalEmptyRule)].map Prod.fst →
        p ∉ errs.map Prod.fst ∧ ∀ l, val = JSValue.obj l → p ∉ l.map Prod.fst) ∧
      (∀ p r, (p, r) ∈ [(("a"), optionalEmptyRule)] → r.optional = true →
        assocGet (JSValue.obj [(("b"), JSValue.num 1)]).ownEntries p = none →
        fieldResult (JSValue.obj [(("b"), JSValue.num 1)]).ownEntries p r MAX_RECURSE =
          ⟨JSValue.undef, none⟩) :=
  read_result_keys [(("a"), optionalEmptyRule)] (JSValue.obj [(("b"), JSValue.num 1)]) rfl

/-- Counterexample: `readField` on an optional field that is absent from the
input returns `[undefined, undefined]` — a pair in which neither the value
nor the error is defined. -/
theorem readField_neither_defined_counterexample :
    ObjectReader.readField [(("a"), optionalEmptyRule)] (JSValue.obj []) ("a") =
      Except.ok (JSValue.undef, none) := by
  simp [ObjectReader.readField, JSValue.isObject, JSValue.ownEntries, assocGet, _validate,
    optionalEmptyRule, SchemaRule.optional, JSValue.isUndef, MAX_RECURSE,
    ValidationResult.errTruthy]

/-- C5 (amended): for a field present in the schema, `read` and `readField`
never throw; `readField` returns a pair in which at most one of value and
error is defined, and on a failure exactly the error is defined. -/
theorem validation_never_throws (schema : List (String × SchemaRule)) (object : JSValue)
    (field : String) (r : SchemaRule) (hf : assocGet schema field = some r) :
    (∃ res, ObjectReader.read schema object = Except.ok res) ∧
    (∃ v e, ObjectReader.readField schema object field = Except.ok (v, e) ∧
      ¬(v ≠ JSValue.undef ∧ e ≠ none) ∧ (e ≠ none → v = JSValue.undef)) := by
  constructor
  · by_cases hobj : object.isObject = true
    · exact ⟨_, ObjectReader.read_eq schema object hobj⟩
    · refine ⟨(JSValue.undef, [(("_"), JSError.typeError (""))]), ?_⟩
      simp [ObjectReader.read, hobj]
  · by_cases hobj : object.isObject = true
    · obtain ⟨res, hres⟩ := _validate_isOk ((assocGet object.ownEntries field).getD JSValue.undef)
        (FieldKey.str field) r MAX_RECURSE
      simp only [ObjectReader.readField, hobj, if_true, hf, hres]
      by_cases ht : res.errTruthy = true
      · exact ⟨JSValue.undef, some (JSError.error (res.error.getD (""))),
          by simp [ht], by simp, fun _ => rfl⟩
      · exact ⟨res.value, none, by simp [ht], by simp, fun h => absurd rfl h⟩
    · refine ⟨JSValue.undef, some (JSError.typeError ("")), ?_, by simp, fun _ => rfl⟩
      simp [ObjectReader.readField, hobj]

/-- Witness for the never-throws theorem at a concrete schema, field and
(non-object) input. -/
theorem validation_never_throws_witness :
    (∃ res, ObjectReader.read [(("a"), optionalEmptyRule)] JSValue.null = Except.ok res) ∧
    (∃ v e, ObjectReader.readField [(("a"), optionalEmptyRule)] JSValue.null ("a") =
        Except.ok (v, e) ∧
      ¬(v ≠ JSValue.undef ∧ e ≠ none) ∧ (e ≠ none → v = JSValue.undef)) :=
  validation_never_throws [(("a"), optionalEmptyRule)] JSValue.null ("a") optionalEmptyRule
    (by simp [assocGet])

/-- C8: a failed JSON parse is reported as the single reserved `_` error and
no field-level validation runs (the result does not depend on the schema);
a successful parse hands the parsed value to `read`, whose result is
returned unchanged. -/
theorem readJSONString_spec (schema : List (String × SchemaRule))
    (parse : String → Except JSError JSValue) (json : String) :
    (∀ e, parse json = Except.error e →
      ObjectReader.readJSONString schema parse json = (JSValue.undef, [(("_"), e)])) ∧
    (∀ v, parse json = Except.ok v →
      ∃ r, ObjectReader.read schema v = Except.ok r ∧
        ObjectReader.readJSONString schema parse json = r) := by
  constructor
  · intro e he
    simp [ObjectReader.readJSONString, he, Except.bind]
  · intro v hv
    have hok : ∃ r, ObjectReader.read schema v = Except.ok r := by
      by_cases hobj : v.isObject = true
      · exact ⟨_, ObjectReader.read_eq schema v hobj⟩
      · exact ⟨(JSValue.undef, [(("_"), JSError.typeError (""))]),
          by simp [ObjectReader.read, hobj]⟩
    obtain ⟨r, hr⟩ := hok
    exact ⟨r, hr, by simp [ObjectReader.readJSONString, hv, hr, Except.bind]⟩

/-- A stand-in for the host `JSON.parse`: accepts exactly one string. -/
def parseStub : String → Except JSError JSValue :=
  fun s => if s = "ok" then Except.ok (JSValue.obj []) else Except.error (JSError.error ("Unexpected token"))

/-- Witness: an unparseable string yields the single reserved `_` error. -/
theorem readJSONString_spec_witness :
    ObjectReader.readJSONString [] parseStub ("bad json") =
      (JSValue.undef, [(("_"), JSError.error ("Unexpected token"))]) :=
  (readJSONString_spec [] parseStub ("bad json")).1 (JSError.error ("Unexpected token"))
    (by simp [parseStub])

/-- A managed object; only its identity matters for the verified claims. -/
structure MObj : Type where
  id : Nat
deriving DecidableEq

/-- The shared frozen empty data object (`NO_DATA` in ManagedEvent.ts). -/
def NO_DATA : List (String × JSValue) := []

/-- An event emitted on a managed object (`ManagedEvent`): name, source,
data payload, optional delegate, optional encapsulated inner event, and the
`noPropagation` flag (`Option` mirrors `boolean | undefined`). -/
inductive ManagedEvent : Type where
  | mk (name : String) (source : MObj) (data : List (String × JSValue))
      (delegate : Option MObj) (inner : Option ManagedEvent)
      (noPropagation : Option Bool) : ManagedEvent

/-- The name of the event. -/
def ManagedEvent.name : ManagedEvent → String
  | ManagedEvent.mk n _ _ _ _ _ => n

/-- The object that emitted (or will emit) the event. -/
def ManagedEvent.source : ManagedEvent → MObj
  | ManagedEvent.mk _ s _ _ _ _ => s

/-- The event data payload. -/
def ManagedEvent.data : ManagedEvent → List (String × JSValue)
  | ManagedEvent.mk _ _ d _ _ _ => d

/-- The object that delegated the event, if any. -/
def ManagedEvent.delegate : ManagedEvent → Option MObj
  | ManagedEvent.mk _ _ _ del _ _ => del

/-- The original (intercepted or forwarded) event, if any. -/
def ManagedEvent.inner : ManagedEvent → Option ManagedEvent
  | ManagedEvent.mk _ _ _ _ i _ => i

/-- The `noPropagation` flag. -/
def ManagedEvent.noPropagation : ManagedEvent → Option Bool
  | ManagedEvent.mk _ _ _ _ _ np => np

/-- The `ManagedEvent` constructor: assigns the six fields from its
arguments, defaulting an omitted `data` to the shared `NO_DATA` object, and
freezes the result — modelled by the event being a pure value with no
mutation operation. -/
def ManagedEvent.create (name : String) (source : MObj)
    (data : Option (List (String × JSValue))) (delegate : Option MObj)
    (inner : Option ManagedEvent) (noPropagation : Option Bool) : ManagedEvent :=
  ManagedEvent.mk name source (data.getD NO_DATA) delegate inner noPropagation

/-- Walks the `inner` chain and returns the first delegate that is an
instance of the requested type (`ManagedEvent.findDelegate`); a class is
modelled as a decidable predicate standing for `instanceof`. -/
def ManagedEvent.findDelegate (ty : MObj → Bool) : ManagedEvent → Option MObj
  | ManagedEvent.mk _ _ _ delegate inner _ =>
    if (match delegate with | some d => ty d | none => false) then delegate
    else
      match inner with
      | some e => ManagedEvent.findDelegate ty e
      | none => none

/-- The chain of events reachable through `inner`, starting with the event
itself. -/
def ManagedEvent.chain : ManagedEvent → List ManagedEvent
  | ManagedEvent.mk n s d del inner np =>
    ManagedEvent.mk n s d del inner np ::
      (match inner with
       | some e => ManagedEvent.chain e
       | none => [])

/-- A value in a view preset: either a binding (an opaque capability the
preset layer recognizes) or a plain runtime value. -/
inductive PresetValue : Type where
  | binding (id : Nat) : PresetValue
  | val (v : JSValue) : PresetValue

/-- Tests whether a preset value is exactly `undefined`. -/
def PresetValue.isUndef : PresetValue → Bool
  | PresetValue.val JSValue.undef => true
  | _ => false

/-- Tests whether a preset key is an event-remap key: it starts with
lowercase `on` and its third character is not a lowercase letter
(`p[0] === "o" && p[1] === "n" && (p[2]! < "a" || p[2]! > "z")`; a key of
length two is not a remap key because comparisons with `undefined` are
false). -/
def isRemapKey (p : String) : Bool :=
  match p.data with
  | 'o' :: 'n' :: c :: _ => decide (c < 'a' ∨ 'z' < c)
  | _ => false

/-- The source event name of a remap key (`p.slice(2)`). -/
def remapEventName (p : String) : String :=
  String.mk (p.data.drop 2)

/-- Tests whether a remap value is rejected: falsy (empty string), not a
string, or equal to the source event name. -/
def badRemapValue (p : String) (v : PresetValue) : Bool :=
  match v with
  | PresetValue.val (JSValue.str s) => decide (s = "" ∨ remapEventName p = s)
  | _ => true

/-- Modelled from the spec: `invalidArgErr` is imported from errors.ts,
which is not among the sources; per the spec it fails the preset application
with an `InvalidArgument` error naming the offending `preset.<key>`. -/
def invalidArgErr (name : String) : JSError :=
  JSError.invalidArgument name

/-- The preset-key loop of `View.applyViewPreset`, restricted to the event
table it builds: `undefined` values are skipped; a remap key records its
(event name → target) entry or throws `InvalidArgument`; any other key sets
a property or applies a binding, which does not affect the event table and
cannot throw. -/
def View.applyViewPresetGo : List (String × PresetValue) → List (String × String) →
    Except JSError (List (String × String))
  | [], events => Except.ok events
  | (p, v) :: rest, events =>
    if v.isUndef then View.applyViewPresetGo rest events
    else if isRemapKey p then
      match v with
      | PresetValue.val (JSValue.str s) =>
        if s = "" ∨ remapEventName p = s then
          Except.error (invalidArgErr (("preset.") ++ p))
        else View.applyViewPresetGo rest (events ++ [(remapEventName p, s)])
      | _ => Except.error (invalidArgErr (("preset.") ++ p))
    else View.applyViewPresetGo rest events

/-- Applies a preset and returns the collected event-remap table. -/
def View.applyViewPreset (preset : List (String × PresetValue)) :
    Except JSError (List (String × String)) :=
  View.applyViewPresetGo preset []

/-- The two call shapes of `emit`: a bare event name with optional data, or
a ready-made event object. -/
inductive EmitArg : Type where
  | byName (name : String) (data : Option (List (String × JSValue))) : EmitArg
  | byEvent (e : ManagedEvent) : EmitArg

/-- Strips a leading `+` (forward marker) off a remap target. -/
def stripPlus (cs : List Char) : Bool × List Char :=
  match cs with
  | '+' :: rest => (true, rest)
  | cs => (false, cs)

/-- Index of the first `:` in a remap target (`v.indexOf(":")`). -/
def colonIndex (cs : List Char) : Option Nat :=
  match cs with
  | [] => none
  | c :: rest => if c = ':' then some 0 else (colonIndex rest).map (fun i => i + 1)

/-- Computes the new event name and data from a (already `+`-stripped) remap
target: a `:` at an index greater than zero splits the target into the new
name and a fresh `{ target: <suffix> }` data object (discarding the incoming
data); otherwise the whole target is the name and the data is kept. -/
def remapNameData (v1 : List Char) (data : Option (List (String × JSValue))) :
    List Char × Option (List (String × JSValue)) :=
  match colonIndex v1 with
  | some i =>
    if 0 < i then (v1.take i, some [(("target"), JSValue.str (String.mk (v1.drop (i + 1))))])
    else (v1, data)
  | none => (v1, data)

/-- The `emit` wrapper installed by `applyViewPreset` when event remaps are
present.  The returned list holds the events delivered to the original
`emit` (hence to listeners), in order; `none` models non-termination on a
cyclic remap table (the recursion through `this.emit` in the source).  A
bare name is first turned into a `ManagedEvent`; an event whose name is not
remapped passes through unchanged; a `+` target first delivers the original
event; the synthesized event carries the resolved name, the same source,
the computed data and the original event as `inner`. -/
def wrapperEmit (events : List (String × String)) (self : MObj) :
    Nat → EmitArg → Option (List ManagedEvent)
  | 0, _ => none
  | fuel + 1, arg =>
    let ev : ManagedEvent :=
      match arg with
      | EmitArg.byName n d => ManagedEvent.create n self d none none none
      | EmitArg.byEvent e => e
    let data : Option (List (String × JSValue)) :=
      match arg with
      | EmitArg.byName _ d => d
      | EmitArg.byEvent e => some e.data
    let v : String := (assocGet events ev.name).getD ("")
    if v = "" then some [ev]
    else
      let sp := stripPlus v.data
      let nd := remapNameData sp.2 data
      match wrapperEmit events self fuel
        (EmitArg.byEvent (ManagedEvent.create (String.mk nd.1) self nd.2 none (some ev) none)) with
      | some l => some (if sp.1 then ev :: l else l)
      | none => none

/-- One-step unfolding of the emit wrapper at positive fuel. -/
theorem wrapperEmit_succ (events : List (String × String)) (self : MObj) (fuel : Nat)
    (arg : EmitArg) :
    wrapperEmit events self (fuel + 1) arg =
      (let ev : ManagedEvent :=
        match arg with
        | EmitArg.byName n d => ManagedEvent.create n self d none none none
        | EmitArg.byEvent e => e
      let data : Option (List (String × JSValue)) :=
        match arg with
        | EmitArg.byName _ d => d
        | EmitArg.byEvent e => some e.data
      let v : String := (assocGet events ev.name).getD ("")
      if v = "" then some [ev]
      else
        let sp := stripPlus v.data
        let nd := remapNameData sp.2 data
        match wrapperEmit events self fuel
          (EmitArg.byEvent (ManagedEvent.create (String.mk nd.1) self nd.2 none (some ev) none)) with
        | some l => some (if sp.1 then ev :: l else l)
        | none => none) := rfl

/-- C6: the `ManagedEvent` constructor assigns `name`, `source`, `data`,
`delegate`, `inner` and `noPropagation` from its arguments, defaults an
omitted `data` to the single shared frozen empty mapping, and freezes the
object: an event is nothing but its construction-time fields (the model has
no mutation on events). -/
theorem managedEvent_construction (name : String) (source : MObj)
    (data : Option (List (String × JSValue))) (delegate : Option MObj)
    (inner : Option ManagedEvent) (noPropagation : Option Bool) :
    (ManagedEvent.create name source data delegate inner noPropagation).name = name ∧
    (ManagedEvent.create name source data delegate inner noPropagation).source = source ∧
    (ManagedEvent.create name source data delegate inner noPropagation).data = data.getD NO_DATA ∧
    (ManagedEvent.create name source data delegate inner noPropagation).delegate = delegate ∧
    (ManagedEvent.create name source data delegate inner noPropagation).inner = inner ∧
    (ManagedEvent.create name source data delegate inner noPropagation).noPropagation = noPropagation ∧
    (ManagedEvent.create name source none delegate inner noPropagation).data = NO_DATA ∧
    (∀ e : ManagedEvent,
      e = ManagedEvent.mk e.name e.source e.data e.delegate e.inner e.noPropagation) := by
  refine ⟨rfl, rfl, rfl, rfl, rfl, rfl, rfl, ?_⟩
  intro e
  cases e
  rfl

/-- C7: `findDelegate` walks the `inner` chain and returns the delegate of
the first event in the chain whose delegate is an instance of the requested
type, and `undefined` when no event in the chain has one. -/
theorem findDelegate_first_in_chain (ty : MObj → Bool) :
    ∀ e : ManagedEvent,
      ManagedEvent.findDelegate ty e =
        (List.find? (fun ev => match ManagedEvent.delegate ev with
            | some d => ty d
            | none => false) (ManagedEvent.chain e)).bind ManagedEvent.delegate
  | ManagedEvent.mk n s d del none np => by
    cases hdel : (match del with | some dd => ty dd | none => false) with
    | true =>
      simp [ManagedEvent.findDelegate, ManagedEvent.chain, ManagedEvent.delegate,
        List.find?, hdel]
    | false =>
      simp [ManagedEvent.findDelegate, ManagedEvent.chain, ManagedEvent.delegate,
        List.find?, hdel]
  | ManagedEvent.mk n s d del (some i) np => by
    have ih := findDelegate_first_in_chain ty i
    cases hdel : (match del with | some dd => ty dd | none => false) with
    | true =>
      simp [ManagedEvent.findDelegate, ManagedEvent.chain, ManagedEvent.delegate,
        List.find?, hdel]
    | false =>
      simp [ManagedEvent.findDelegate, ManagedEvent.chain, ManagedEvent.delegate,
        List.find?, hdel, ih]

/-- C3: after applying the preset `{ onClick: "+RemoveItem" }`, emitting
`"Click"` delivers exactly two events in order — the original `Click` event
unchanged, then a new `RemoveItem` event with the same source whose `inner`
is the original `Click` event — and an event whose name is not a remap key
is passed to the original `emit` unchanged. -/
theorem preset_click_emits_both (self : MObj) (data : Option (List (String × JSValue))) :
    View.applyViewPreset [(("onClick"), PresetValue.val (JSValue.str ("+RemoveItem")))] =
      Except.ok [(("Click"), ("+RemoveItem"))] ∧
    wrapperEmit [(("Click"), ("+RemoveItem"))] self 2 (EmitArg.byName ("Click") data) =
      some [ManagedEvent.create ("Click") self data none none none,
        ManagedEvent.mk ("RemoveItem") self (data.getD NO_DATA) none
          (some (ManagedEvent.create ("Click") self data none none none)) none] ∧
    (∀ e : ManagedEvent, assocGet [(("Click"), ("+RemoveItem"))] e.name = none →
      wrapperEmit [(("Click"), ("+RemoveItem"))] self 1 (EmitArg.byEvent e) = some [e]) := by
  refine ⟨rfl, ?_, ?_⟩
  · rfl
  · intro e he
    rw [show (1 : Nat) = 0 + 1 from rfl, wrapperEmit_succ]
    simp [he]

/-- Witness: an event whose name is not in the remap table passes through
the wrapper unchanged. -/
theorem preset_click_emits_both_witness :
    wrapperEmit [(("Click"), ("+RemoveItem"))] ⟨0⟩ 1
        (EmitArg.byEvent (ManagedEvent.mk ("Foo") ⟨0⟩ [] none none none)) =
      some [ManagedEvent.mk ("Foo") ⟨0⟩ [] none none none] :=
  (preset_click_emits_both ⟨0⟩ none).2.2 (ManagedEvent.mk ("Foo") ⟨0⟩ [] none none none) rfl

/-- C9: in the emit wrapper, a `:` at an index greater than zero in the
(possibly `+`-stripped) remap target makes the synthesized event carry
exactly `{ target: <suffix> }` as data — the incoming data is discarded —
with the prefix as its name, while a `:` at index zero is not a separator:
the whole target (including the leading colon) becomes the name and the
original data is kept; the synthesized event (with the original event as
`inner`) is what the wrapper emits. -/
theorem remap_colon_target (events : List (String × String)) (self : MObj) (name : String)
    (data : Option (List (String × JSValue))) (v : String) (fuel : Nat)
    (hlook : assocGet events name = some v) (hv : ¬ v = "")
    (hnew : assocGet events (String.mk (remapNameData (stripPlus v.data).2 data).1) = none) :
    wrapperEmit events self (fuel + 2) (EmitArg.byName name data) = some (
      (if (stripPlus v.data).1 then [ManagedEvent.create name self data none none none] else []) ++
      [ManagedEvent.mk (String.mk (remapNameData (stripPlus v.data).2 data).1) self
        (((remapNameData (stripPlus v.data).2 data).2).getD NO_DATA) none
        (some (ManagedEvent.create name self data none none none)) none]) ∧
    (∀ i, colonIndex (stripPlus v.data).2 = some i → 0 < i →
      remapNameData (stripPlus v.data).2 data =
        ((stripPlus v.data).2.take i,
         some [(("target"), JSValue.str (String.mk ((stripPlus v.data).2.drop (i + 1))))])) ∧
    (colonIndex (stripPlus v.data).2 = some 0 →
      remapNameData (stripPlus v.data).2 data = ((stripPlus v.data).2, data)) := by
  refine ⟨?_, ?_, ?_⟩
  · rw [show fuel + 2 = fuel + 1 + 1 from rfl, wrapperEmit_succ]
    have hname : (ManagedEvent.create name self data none none none).name = name := rfl
    simp only [hname]
    simp only [hlook, Option.getD_some]
    rw [if_neg hv]
    rw [wrapperEmit_succ]
    have hname2 : (ManagedEvent.create
        (String.mk (remapNameData (stripPlus v.data).2 data).1) self
        (remapNameData (stripPlus v.data).2 data).2 none
        (some (ManagedEvent.create name self data none none none)) none).name =
        String.mk (remapNameData (stripPlus v.data).2 data).1 := rfl
    simp only [hname2, hnew]
    cases hsp : (stripPlus v.data).1 with
    | true => simp [hsp, ManagedEvent.create]
    | false => simp [hsp, ManagedEvent.create]
  · intro i hi hpos
    simp [remapNameData, hi, hpos]
  · intro h0
    simp [remapNameData, h0]

/-- Witness: remap target `"Go:btn"` — the synthesized event is named `Go`
and carries `{ target: "btn" }`, discarding the incoming data. -/
theorem remap_colon_target_witness :
    (wrapperEmit [(("Click"), ("Go:btn"))] ⟨0⟩ (0 + 2)
        (EmitArg.byName ("Click") (some [(("x"), JSValue.num 1)])) = some (
      (if (stripPlus ("Go:btn" : String).data).1 then
        [ManagedEvent.create ("Click") ⟨0⟩ (some [(("x"), JSValue.num 1)]) none none none]
      else []) ++
      [ManagedEvent.mk
        (String.mk (remapNameData (stripPlus ("Go:btn" : String).data).2
          (some [(("x"), JSValue.num 1)])).1) ⟨0⟩
        (((remapNameData (stripPlus ("Go:btn" : String).data).2
          (some [(("x"), JSValue.num 1)])).2).getD NO_DATA) none
        (some (ManagedEvent.create ("Click") ⟨0⟩ (some [(("x"), JSValue.num 1)]) none none none))
        none])) ∧
    (∀ i, colonIndex (stripPlus ("Go:btn" : String).data).2 = some i → 0 < i →
      remapNameData (stripPlus ("Go:btn" : String).data).2 (some [(("x"), JSValue.num 1)]) =
        ((stripPlus ("Go:btn" : String).data).2.take i,
         some [(("target"),
           JSValue.str (String.mk ((stripPlus ("Go:btn" : String).data).2.drop (i + 1))))])) ∧
    (colonIndex (stripPlus ("Go:btn" : String).data).2 = some 0 →
      remapNameData (stripPlus ("Go:btn" : String).data).2 (some [(("x"), JSValue.num 1)]) =
        ((stripPlus ("Go:btn" : String).data).2, some [(("x"), JSValue.num 1)])) :=
  remap_colon_target [(("Click"), ("Go:btn"))] ⟨0⟩ ("Click") (some [(("x"), JSValue.num 1)])
    ("Go:btn") 0 rfl (by decide) rfl

/-- One preset step at a remap key with a non-`undefined` value: a bad value
throws `InvalidArgument` for that key, and a good value is necessarily a
nonempty string distinct from the event name and is recorded in the event
table. -/
theorem applyViewPresetGo_cons_remap (p : String) (v : PresetValue)
    (rest : List (String × PresetValue)) (events : List (String × String))
    (hUf : v.isUndef = false) (hR : isRemapKey p = true) :
    (badRemapValue p v = true →
      View.applyViewPresetGo ((p, v) :: rest) events =
        Except.error (JSError.invalidArgument (("preset.") ++ p))) ∧
    (badRemapValue p v = false →
      ∃ s, v = PresetValue.val (JSValue.str s) ∧ ¬ s = "" ∧ ¬ remapEventName p = s ∧
        View.applyViewPresetGo ((p, v) :: rest) events =
          View.applyViewPresetGo rest (events ++ [(remapEventName p, s)])) := by
  cases v with
  | binding id =>
    refine ⟨fun _ => ?_, fun hb => ?_⟩
    · simp [View.applyViewPresetGo, invalidArgErr, hUf, hR, PresetValue.isUndef]
    · simp [badRemapValue] at hb
  | val jv =>
    cases jv with
    | undef => simp [PresetValue.isUndef] at hUf
    | str s =>
      by_cases hbad : s = "" ∨ remapEventName p = s
      · refine ⟨fun _ => ?_, fun hb => ?_⟩
        · simp [View.applyViewPresetGo, invalidArgErr, hUf, hR, PresetValue.isUndef, hbad]
        · rw [badRemapValue] at hb
          simp [hbad] at hb
      · refine ⟨fun hb => ?_, fun _ => ⟨s, rfl, ?_, ?_, ?_⟩⟩
        · rw [badRemapValue] at hb
          simp [hbad] at hb
        · intro h
          exact hbad (Or.inl h)
        · intro h
          exact hbad (Or.inr h)
        · simp [View.applyViewPresetGo, invalidArgErr, hUf, hR, PresetValue.isUndef, hbad]
    | null =>
      refine ⟨fun _ => ?_, fun hb => ?_⟩
      · simp [View.applyViewPresetGo, invalidArgErr, hUf, hR, PresetValue.isUndef]
      · simp [badRemapValue] at hb
    | bool b =>
      refine ⟨fun _ => ?_, fun hb => ?_⟩
      · simp [View.applyViewPresetGo, invalidArgErr, hUf, hR, PresetValue.isUndef]
      · simp [badRemapValue] at hb
    | num n2 =>
      refine ⟨fun _ => ?_, fun hb => ?_⟩
      · simp [View.applyViewPresetGo, invalidArgErr, hUf, hR, PresetValue.isUndef]
      · simp [badRemapValue] at hb
    | date t =>
      refine ⟨fun _ => ?_, fun hb => ?_⟩
      · simp [View.applyViewPresetGo, invalidArgErr, hUf, hR, PresetValue.isUndef]
      · simp [badRemapValue] at hb
    | arr l =>
      refine ⟨fun _ => ?_, fun hb => ?_⟩
      · simp [View.applyViewPresetGo, invalidArgErr, hUf, hR, PresetValue.isUndef]
      · simp [badRemapValue] at hb
    | obj fs =>
      refine ⟨fun _ => ?_, fun hb => ?_⟩
      · simp [View.applyViewPresetGo, invalidArgErr, hUf, hR, PresetValue.isUndef]
      · simp [badRemapValue] at hb

/-- The preset loop throws `InvalidArgument` exactly when some key is an
event-remap key whose (non-`undefined`) value is rejected. -/
theorem applyViewPresetGo_error_iff : ∀ (preset : List (String × PresetValue))
    (events : List (String × String)),
    (∃ msg, View.applyViewPresetGo preset events = Except.error (JSError.invalidArgument msg)) ↔
      ∃ pv, pv ∈ preset ∧ pv.2.isUndef = false ∧ isRemapKey pv.1 = true ∧
        badRemapValue pv.1 pv.2 = true := by
  intro preset
  induction preset with
  | nil =>
    intro events
    simp [View.applyViewPresetGo]
  | cons pv rest ih =>
    intro events
    obtain ⟨p, v⟩ := pv
    by_cases hU : v.isUndef = true
    · have hGo : View.applyViewPresetGo ((p, v) :: rest) events =
          View.applyViewPresetGo rest events := by
        simp [View.applyViewPresetGo, hU]
      rw [hGo, ih]
      constructor
      · rintro ⟨pv', hm, h1, h2, h3⟩
        exact ⟨pv', List.mem_cons_of_mem _ hm, h1, h2, h3⟩
      · rintro ⟨pv', hm, h1, h2, h3⟩
        rcases List.mem_cons.mp hm with he | hm'
        · rw [he] at h1
          simp only at h1
          exact absurd hU (by simp [h1])
        · exact ⟨pv', hm', h1, h2, h3⟩
    · have hUf : v.isUndef = false := by simpa using hU
      by_cases hR : isRemapKey p = true
      · by_cases hbad : badRemapValue p v = true
        · have hGo := (applyViewPresetGo_cons_remap p v rest events hUf hR).1 hbad
          constructor
          · intro _
            exact ⟨(p, v), List.mem_cons_self _ _, hUf, hR, hbad⟩
          · intro _
            exact ⟨("preset.") ++ p, by rw [hGo]⟩
        · have hbf : badRemapValue p v = false := by simpa using hbad
          obtain ⟨s, hvs, hs1, hs2, hGo⟩ := (applyViewPresetGo_cons_remap p v rest events hUf hR).2 hbf
          rw [hGo, ih]
          constructor
          · rintro ⟨pv', hm, h⟩
            exact ⟨pv', List.mem_cons_of_mem _ hm, h⟩
          · rintro ⟨pv', hm, h1, h2, h3⟩
            rcases List.mem_cons.mp hm with he | hm'
            · rw [he] at h3
              exact absurd h3 (by simp [hbf])
            · exact ⟨pv', hm', h1, h2, h3⟩
      · have hRf : isRemapKey p = false := by simpa using hR
        have hGo : View.applyViewPresetGo ((p, v) :: rest) events =
            View.applyViewPresetGo rest events := by
          simp [View.applyViewPresetGo, hUf, hRf]
        rw [hGo, ih]
        constructor
        · rintro ⟨pv', hm, h⟩
          exact ⟨pv', List.mem_cons_of_mem _ hm, h⟩
        · rintro ⟨pv', hm, h1, h2, h3⟩
          rcases List.mem_cons.mp hm with he | hm'
          · rw [he] at h2
            exact absurd h2 (by simp [hRf])
          · exact ⟨pv', hm', h1, h2, h3⟩

/-- When every remap entry is valid, the preset loop returns normally, keeps
every already-recorded entry, and records every remap entry. -/
theorem applyViewPresetGo_ok : ∀ (preset : List (String × PresetValue))
    (events : List (String × String)),
    (∀ pv, pv ∈ preset → pv.2.isUndef = false → isRemapKey pv.1 = true →
      badRemapValue pv.1 pv.2 = false) →
    ∃ out, View.applyViewPresetGo preset events = Except.ok out ∧
      (∀ x, x ∈ events → x ∈ out) ∧
      (∀ p s, (p, PresetValue.val (JSValue.str s)) ∈ preset → isRemapKey p = true →
        ¬ s = "" → ¬ remapEventName p = s → (remapEventName p, s) ∈ out) := by
  intro preset
  induction preset with
  | nil =>
    intro events _
    refine ⟨events, by simp [View.applyViewPresetGo], fun x hx => hx, ?_⟩
    intro p s hm
    cases hm
  | cons pv rest ih =>
    intro events hgood
    obtain ⟨p, v⟩ := pv
    have hgoodRest : ∀ pv', pv' ∈ rest → pv'.2.isUndef = false → isRemapKey pv'.1 = true →
        badRemapValue pv'.1 pv'.2 = false :=
      fun pv' hm => hgood pv' (List.mem_cons_of_mem _ hm)
    by_cases hU : v.isUndef = true
    · obtain ⟨out, hGo, hsub, hrec⟩ := ih events hgoodRest
      refine ⟨out, by simp [View.applyViewPresetGo, hU, hGo], hsub, ?_⟩
      intro q s hm hRq hs1 hs2
      rcases List.mem_cons.mp hm with he | hm'
      · have hv2 : PresetValue.val (JSValue.str s) = v := congrArg Prod.snd he
        rw [← hv2] at hU
        simp [PresetValue.isUndef] at hU
      · exact hrec q s hm' hRq hs1 hs2
    · have hUf : v.isUndef = false := by simpa using hU
      by_cases hR : isRemapKey p = true
      · have hbf : badRemapValue p v = false := hgood (p, v) (List.mem_cons_self _ _) hUf hR
        obtain ⟨s, hvs, hs1, hs2, hGo⟩ := (applyViewPresetGo_cons_remap p v rest events hUf hR).2 hbf
        obtain ⟨out, hGo2, hsub, hrec⟩ := ih (events ++ [(remapEventName p, s)]) hgoodRest
        refine ⟨out, by rw [hGo, hGo2], ?_, ?_⟩
        · intro x hx
          exact hsub x (List.mem_append_left _ hx)
        · intro q s' hm hRq hs1' hs2'
          rcases List.mem_cons.mp hm with he | hm'
          · have hq : q = p := congrArg Prod.fst he
            have hv2 : PresetValue.val (JSValue.str s') = v := congrArg Prod.snd he
            rw [hvs] at hv2
            injection hv2 with hjs
            injection hjs with hss
            rw [hq, hss]
            exact hsub _ (List.mem_append_right _ (by simp))
          · exact hrec q s' hm' hRq hs1' hs2'
      · have hRf : isRemapKey p = false := by simpa using hR
        obtain ⟨out, hGo, hsub, hrec⟩ := ih events hgoodRest
        refine ⟨out, by simp [View.applyViewPresetGo, hUf, hRf, hGo], hsub, ?_⟩
        intro q s hm hRq hs1 hs2
        rcases List.mem_cons.mp hm with he | hm'
        · have hq : q = p := congrArg Prod.fst he
          rw [hq] at hRq
          exact absurd hRq (by simp [hRf])
        · exact hrec q s hm' hRq hs1 hs2

/-- C4: `applyViewPreset` throws `InvalidArgument` exactly when a remap key
(`on` followed by a non-lowercase character) has a non-`undefined` value
that is empty, not a string, or equal to its own source event name; when
every remap value is a nonempty string distinct from its event name, the
preset is applied without error and every remap is recorded in the event
table. -/
theorem applyViewPreset_invalid_iff (preset : List (String × PresetValue)) :
    ((∃ msg, View.applyViewPreset preset = Except.error (JSError.invalidArgument msg)) ↔
      ∃ pv, pv ∈ preset ∧ pv.2.isUndef = false ∧ isRemapKey pv.1 = true ∧
        badRemapValue pv.1 pv.2 = true) ∧
    ((∀ pv, pv ∈ preset → pv.2.isUndef = false → isRemapKey pv.1 = true →
        badRemapValue pv.1 pv.2 = false) →
      ∃ events, View.applyViewPreset preset = Except.ok events ∧
        ∀ p s, (p, PresetValue.val (JSValue.str s)) ∈ preset → isRemapKey p = true →
          ¬ s = "" → ¬ remapEventName p = s → (remapEventName p, s) ∈ events) := by
  constructor
  · exact applyViewPresetGo_error_iff preset []
  · intro hgood
    obtain ⟨out, hGo, _, hrec⟩ := applyViewPresetGo_ok preset [] hgood
    exact ⟨out, hGo, hrec⟩

/-- Witness: the preset `{ onClick: "Click" }` (target equal to its own
event name) throws `InvalidArgument`, and the preset
`{ onClick: "+RemoveItem" }` is accepted with its remap recorded. -/
theorem applyViewPreset_invalid_iff_witness :
    (∃ msg, View.applyViewPreset [(("onClick"), PresetValue.val (JSValue.str ("Click")))] =
      Except.error (JSError.invalidArgument msg)) ∧
    (∃ events, View.applyViewPreset
        [(("onClick"), PresetValue.val (JSValue.str ("+RemoveItem")))] = Except.ok events ∧
      (("Click" : String), ("+RemoveItem" : String)) ∈ events) := by
  constructor
  · exact (applyViewPreset_invalid_iff
      [(("onClick"), PresetValue.val (JSValue.str ("Click")))]).1.mpr
      ⟨(("onClick"), PresetValue.val (JSValue.str ("Click"))), by simp, rfl, rfl, by decide⟩
  · obtain ⟨events, hok, hrec⟩ := (applyViewPreset_invalid_iff
      [(("onClick"), PresetValue.val (JSValue.str ("+RemoveItem")))]).2
      (by intro pv hm h1 h2; rcases List.mem_cons.mp hm with he | he
          · rw [he]; decide
          · cases he)
    refine ⟨events, hok, ?_⟩
    have := hrec ("onClick") ("+RemoveItem") (by simp) rfl (by decide) (by decide)
    exact this
